import Mathlib

/-!
# Verification of `src/directories.py`

The script walks the directory tree rooted at the current working directory
(`os.walk(".", topdown=True)`), removes from `dirs` every subdirectory whose
name is in a fixed exclusion list (so excluded subtrees are never descended
into), and writes one line per visited directory (`indent + basename + "/"`)
followed by one line per file directly inside it, to `project_structure.txt`
opened with mode `"w"`.

The embedding below models the input as a finite directory tree (`FsTree`),
the walk as a recursive function producing the exact list of strings passed
to `f.write`, and the output file as the concatenation of those strings.
Paths are the relative path strings the walk builds (`"."`, `"./a"`,
`"./a/b"`, ...), on the POSIX platform where `os.sep` is `'/'`.
-/

/-- `os.sep` on the POSIX platform the script runs on. -/
def osSep : Char := '/'

/-- The exclusion list hard-coded at line 7 of the script:
`["__pycache__", "migrations", "venv", "env", "static", "media"]`. -/
def excludedNames : List String :=
  ["__pycache__", "migrations", "venv", "env", "static", "media"]

/-- A finite directory tree: a directory's name, its subdirectories (in the
order `os.walk` reports them), and the names of the regular files directly
inside it (in the order `os.walk` reports them). -/
inductive FsTree : Type where
  | node : String → List FsTree → List String → FsTree

/-- The directory's own name. -/
def FsTree.name : FsTree → String
  | .node n _ _ => n

/-- The list of immediate subdirectories. -/
def FsTree.subdirs : FsTree → List FsTree
  | .node _ s _ => s

/-- The names of the files directly inside the directory. -/
def FsTree.files : FsTree → List String
  | .node _ _ fs => fs

/-- `root.count(os.sep)` (line 8 of the script): the number of occurrences of
the path separator in a path string. -/
def countSep (s : String) : Nat := s.data.count osSep

/-- Python string repetition `s * n`, used as `"  " * level` (lines 9 and 11). -/
def repeatStr : Nat → String → String
  | 0, _ => ""
  | Nat.succ n, s => s ++ repeatStr n s

/-- `os.path.join(root, name)` for the relative paths built by `os.walk(".")`:
the walk starts at `"."` and each child path is `root + "/" + name`. -/
def pjoin (root n : String) : String := root ++ "/" ++ n

/-- `os.path.basename`: the part of the path after the final separator
(the whole string when no separator occurs, e.g. `basename "." = "."`). -/
def basename (s : String) : String :=
  ⟨(s.data.reverse.takeWhile (fun c => c ≠ osSep)).reverse⟩

/-- The exact string written for a visited directory (lines 8-10):
`f"{..indent..}{..basename..}/\n"` where the indent is `"  " * root.count(os.sep)`. -/
def dirWrite (root : String) : String :=
  repeatStr (countSep root) "  " ++ basename root ++ "/" ++ "\n"

/-- The exact string written for one file of a visited directory (lines 11-13):
the sub-indent is `"  " * (level + 1)`. -/
def fileWrite (root : String) (file : String) : String :=
  repeatStr (countSep root + 1) "  " ++ file ++ "\n"

mutual
/-- The sequence of strings the script passes to `f.write` while walking the
tree `t` whose path is `root`: the directory's own line, then one line per
file in it, then the output of the surviving children in order.  The
list-comprehension filter of line 7 (`dirs[:] = [d for d in dirs if d not in
[...]]`) together with `os.walk`'s top-down descent into the surviving `dirs`
is rendered by `walkChildren` skipping excluded children entirely. -/
def walkOutput (root : String) : FsTree → List String
  | .node _ subdirs files =>
    dirWrite root :: (files.map (fileWrite root) ++ walkChildren root subdirs)

/-- The output contributed by the children of a visited directory `root`:
children whose name is in the exclusion list are pruned before descent and
contribute nothing; the others are walked at path `os.path.join(root, name)`. -/
def walkChildren (root : String) : List FsTree → List String
  | [] => []
  | c :: cs =>
    (if c.name ∈ excludedNames then [] else walkOutput (pjoin root c.name) c)
      ++ walkChildren root cs
end

/-- One directory visit of the walk: its path string, its depth below the
traversal root (number of levels of descent), and its files. -/
structure VNode : Type where
  path : String
  depth : Nat
  files : List String
deriving DecidableEq

mutual
/-- The list of directory visits `os.walk(".", topdown=True)` performs on `t`
at path `root`, in visiting order, each tagged with its depth below the
traversal root (`d` at the root of `t`). -/
def visit (root : String) (d : Nat) : FsTree → List VNode
  | .node _ subdirs files =>
    ⟨root, d, files⟩ :: visitChildren root d subdirs

/-- The visits contributed by the children of a directory at path `root` and
depth `d`: excluded children are never visited. -/
def visitChildren (root : String) (d : Nat) : List FsTree → List VNode
  | [] => []
  | c :: cs =>
    (if c.name ∈ excludedNames then [] else visit (pjoin root c.name) (d + 1) c)
      ++ visitChildren root d cs
end

/-- The block of lines one directory visit writes: its own line, then one
line per file directly inside it. -/
def block (vn : VNode) : List String :=
  dirWrite vn.path :: vn.files.map (fileWrite vn.path)

/-- An output entry attributed to its origin: `(p, none)` is the directory
line of the directory at path `p`; `(p, some f)` is the line for file `f`
directly inside the directory at path `p`. -/
def renderEntry : String × Option String → String
  | (q, none) => dirWrite q
  | (q, some f) => fileWrite q f

/-- The attributed entries of the whole output: one directory entry per
visit, followed by one file entry per file of that visit. -/
def entriesOf (root : String) (d : Nat) (t : FsTree) : List (String × Option String) :=
  (visit root d t).flatMap fun vn =>
    (vn.path, none) :: vn.files.map fun f => (vn.path, some f)

mutual
/-- The tree with every excluded-named subdirectory (and everything beneath
it) removed, at every level. -/
def pruneExcluded : FsTree → FsTree
  | .node n subdirs files => .node n (pruneChildren subdirs) files

/-- Removes excluded-named children (with their whole subtrees) from a list
of siblings and prunes the survivors recursively. -/
def pruneChildren : List FsTree → List FsTree
  | [] => []
  | c :: cs =>
    (if c.name ∈ excludedNames then [] else [pruneExcluded c]) ++ pruneChildren cs
end

mutual
/-- Directory names on a real filesystem never contain the path separator;
`goodNames t` states this for every subdirectory name in `t` (the root's own
name is never used by the walk, which starts at the literal path `"."`). -/
def FsTree.goodNames : FsTree → Bool
  | .node _ subdirs _ => goodNamesList subdirs

/-- `goodNames` for a list of sibling subtrees, including their own names. -/
def goodNamesList : List FsTree → Bool
  | [] => true
  | c :: cs => (!c.name.data.contains osSep && c.goodNames) && goodNamesList cs
end

/-- Opening `project_structure.txt` with mode `"w"` truncates whatever the
file held before (line 4 of the script). -/
def openTruncate (_prev : String) : String := ""

/-- One run of the script over the tree `t` when the output file currently
holds `prev`: the file is opened with mode `"w"` (truncation) and every
`f.write` appends its string; the result is the file's final content. -/
def runProgram (t : FsTree) (prev : String) : String :=
  (walkOutput "." t).foldl (fun acc s => acc ++ s) (openTruncate prev)

/-- The observable filesystem effects of the script, in program order. -/
inductive Event : Type where
  | openOutput : Event
  | write : String → Event
  | closeOutput : Event
deriving DecidableEq

/-- The effect trace of one run: the `with open(...)` at line 4 runs before
the walk loop, then every `f.write` in order, then the close at the end of
the `with` block. -/
def programTrace (t : FsTree) : List Event :=
  Event.openOutput :: ((walkOutput "." t).map Event.write) ++ [Event.closeOutput]

/-- The error the run stops with when the output file cannot be opened. -/
def openErr : String := "OSError: cannot open project_structure.txt for writing"

/-- Executes an effect trace against a filesystem where opening the output
file for writing succeeds iff `openOk`.  Returns the strings actually
written and the error the run stopped with, if any: a failing `open` stops
the run at once, so nothing after it executes. -/
def execEvents (openOk : Bool) : List Event → List String × Option String
  | [] => ([], none)
  | Event.openOutput :: rest =>
    if openOk then execEvents openOk rest else ([], some openErr)
  | Event.write s :: rest =>
    let r := execEvents openOk rest
    (s :: r.1, r.2)
  | Event.closeOutput :: rest => execEvents openOk rest

/-- A small concrete tree used to instantiate theorems below: the working
directory holds `README.md`, a file literally named `venv`, a subdirectory
`src` with `main.py`, and an excluded subdirectory `venv` with contents. -/
def sampleTree : FsTree :=
  .node "proj"
    [.node "src" [] ["main.py"],
     .node "venv" [.node "lib" [] ["x.py"]] ["pyvenv.cfg"]]
    ["README.md", "venv"]

/-! ## Helper lemmas -/

/-- Induction over `FsTree`: to prove `P` for every tree it suffices to prove
it for a node given that it holds for every immediate subtree. -/
theorem FsTree.inductionOn {P : FsTree → Prop}
    (h : ∀ n subdirs files, (∀ c ∈ subdirs, P c) → P (FsTree.node n subdirs files)) :
    ∀ t, P t
  | .node n subdirs files =>
    h n subdirs files (fun c hc => FsTree.inductionOn h c)
termination_by t => sizeOf t
decreasing_by
  have h1 := List.sizeOf_lt_of_mem hc
  simp only [FsTree.node.sizeOf_spec]
  omega

theorem walkChildren_append (root : String) (xs ys : List FsTree) :
    walkChildren root (xs ++ ys) = walkChildren root xs ++ walkChildren root ys := by
  induction xs with
  | nil => simp [walkChildren]
  | cons c cs ih => simp [walkChildren, ih]

theorem visitChildren_append (root : String) (d : Nat) (xs ys : List FsTree) :
    visitChildren root d (xs ++ ys) = visitChildren root d xs ++ visitChildren root d ys := by
  induction xs with
  | nil => simp [visitChildren]
  | cons c cs ih => simp [visitChildren, ih]

theorem walkChildren_eq_visitChildren (cs : List FsTree)
    (ih : ∀ c ∈ cs, ∀ (root : String) (d : Nat),
      walkOutput root c = (visit root d c).flatMap block)
    (root : String) (d : Nat) :
    walkChildren root cs = (visitChildren root d cs).flatMap block := by
  induction cs with
  | nil => simp [walkChildren, visitChildren]
  | cons c cs ihl =>
    have hc := ih c (List.mem_cons_self c cs)
    have hcs := ihl (fun x hx => ih x (List.mem_cons_of_mem _ hx))
    by_cases he : c.name ∈ excludedNames
    · simp [walkChildren, visitChildren, he, hcs]
    · simp [walkChildren, visitChildren, he, hcs, hc (pjoin root c.name) (d + 1)]

/-- Structure of the output: the walk writes, for each visited directory in
visiting order, its directory line followed by its file lines. -/
theorem walkOutput_eq_visit_flatMap (t : FsTree) :
    ∀ (root : String) (d : Nat), walkOutput root t = (visit root d t).flatMap block := by
  induction t using FsTree.inductionOn with
  | h n subdirs files ih =>
    intro root d
    simp only [walkOutput, visit, List.flatMap_cons, block]
    simp only [List.cons_append, List.nil_append]
    exact congrArg _ (congrArg _ (walkChildren_eq_visitChildren subdirs ih root d))

theorem countSep_append (a b : String) :
    countSep (a ++ b) = countSep a + countSep b := by
  simp [countSep, String.data_append, List.count_append]

theorem countSep_slash : countSep "/" = 1 := by decide

theorem countSep_dot : countSep "." = 0 := by decide

theorem countSep_pjoin (root n : String) (h : n.data.contains osSep = false) :
    countSep (pjoin root n) = countSep root + 1 := by
  have hn : countSep n = 0 := by
    refine List.count_eq_zero.mpr ?_
    simpa using h
  simp [pjoin, countSep_append, countSep_slash, hn]

theorem repeatStr_two_space (n : Nat) :
    repeatStr n "  " = ⟨List.replicate (2 * n) ' '⟩ := by
  induction n with
  | zero => rfl
  | succ m ih =>
    apply String.ext
    have h2 : 2 * (m + 1) = (2 * m) + 1 + 1 := by omega
    simp [repeatStr, ih, String.data_append, h2, List.replicate_succ]

theorem repeatStr_two_space_length (n : Nat) :
    (repeatStr n "  ").length = 2 * n := by
  rw [repeatStr_two_space]
  simp [String.length]

theorem pruneExcluded_name (t : FsTree) : (pruneExcluded t).name = t.name := by
  cases t
  simp [pruneExcluded, FsTree.name]

theorem visitChildren_prune (cs : List FsTree)
    (ih : ∀ c ∈ cs, ∀ (root : String) (d : Nat),
      visit root d (pruneExcluded c) = visit root d c)
    (root : String) (d : Nat) :
    visitChildren root d (pruneChildren cs) = visitChildren root d cs := by
  induction cs with
  | nil => simp [pruneChildren, visitChildren]
  | cons c cs ihl =>
    have hcs := ihl (fun x hx => ih x (List.mem_cons_of_mem _ hx))
    by_cases he : c.name ∈ excludedNames
    · simp [pruneChildren, visitChildren, he, hcs]
    · have hpe : (pruneExcluded c).name ∉ excludedNames := by
        rw [pruneExcluded_name]; exact he
      simp only [pruneChildren, he, if_neg he, List.singleton_append,
        visitChildren, if_neg hpe, pruneExcluded_name, List.nil_append,
        List.append_nil]
      have hnil : ([] : List FsTree).append (pruneChildren cs) = pruneChildren cs := rfl
      rw [ih c (List.mem_cons_self c cs), hnil, hcs]

/-- Pruning every excluded subtree does not change the set of visits. -/
theorem visit_prune (t : FsTree) :
    ∀ (root : String) (d : Nat), visit root d (pruneExcluded t) = visit root d t := by
  induction t using FsTree.inductionOn with
  | h n subdirs files ih =>
    intro root d
    simp only [pruneExcluded, visit]
    rw [visitChildren_prune subdirs ih root d]

/-- Pruning every excluded subtree does not change the output. -/
theorem walkOutput_prune (t : FsTree) :
    ∀ (root : String), walkOutput root (pruneExcluded t) = walkOutput root t := by
  intro root
  rw [walkOutput_eq_visit_flatMap (pruneExcluded t) root 0,
    walkOutput_eq_visit_flatMap t root 0, visit_prune t root 0]

theorem visitChildren_depth (cs : List FsTree)
    (ih : ∀ c ∈ cs, ∀ (root : String) (d : Nat), c.goodNames = true →
      countSep root = d → ∀ vn ∈ visit root d c, countSep vn.path = vn.depth)
    (root : String) (d : Nat) (hg : goodNamesList cs = true) (hr : countSep root = d) :
    ∀ vn ∈ visitChildren root d cs, countSep vn.path = vn.depth := by
  induction cs with
  | nil => simp [visitChildren]
  | cons c cs ihl =>
    have hg1 : (!c.name.data.contains osSep && c.goodNames) = true ∧
        goodNamesList cs = true := by
      simpa [goodNamesList, Bool.and_eq_true] using hg
    have hsep : c.name.data.contains osSep = false := by
      have := hg1.1
      simp [Bool.and_eq_true] at this
      simpa using this.1
    have hgc : c.goodNames = true := by
      have := hg1.1
      simp [Bool.and_eq_true] at this
      exact this.2
    intro vn hvn
    simp only [visitChildren] at hvn
    rcases List.mem_append.mp hvn with hl | hr2
    · by_cases he : c.name ∈ excludedNames
      · simp [he] at hl
      · simp only [if_neg he] at hl
        exact ih c (List.mem_cons_self c cs) (pjoin root c.name) (d + 1) hgc
          (by rw [countSep_pjoin root c.name hsep, hr]) vn hl
    · exact ihl (fun x hx => ih x (List.mem_cons_of_mem _ hx)) hg1.2 vn hr2

/-- The level the script computes from a visited path equals the visit's
depth below the traversal root, provided subdirectory names are
separator-free and the level of the starting path equals the starting
depth. -/
theorem visit_countSep_eq_depth (t : FsTree) :
    ∀ (root : String) (d : Nat), t.goodNames = true → countSep root = d →
      ∀ vn ∈ visit root d t, countSep vn.path = vn.depth := by
  induction t using FsTree.inductionOn with
  | h n subdirs files ih =>
    intro root d hg hr vn hvn
    simp only [visit] at hvn
    rcases List.mem_cons.mp hvn with h0 | h1
    · subst h0; exact hr
    · exact visitChildren_depth subdirs
        (fun c hc => ih c hc) root d (by simpa [FsTree.goodNames] using hg) hr vn h1

theorem sum_ite_path_zero (l : List VNode) (q : String) (g : VNode → Nat)
    (h : ∀ vn ∈ l, vn.path ≠ q) :
    (l.map fun vn => if vn.path = q then g vn else 0).sum = 0 := by
  induction l with
  | nil => simp
  | cons a l ih =>
    simp [if_neg (h a (List.mem_cons_self a l)),
      ih (fun x hx => h x (List.mem_cons_of_mem _ hx))]

theorem sum_ite_path (l : List VNode) (q : String) (g : VNode → Nat)
    (hnd : (l.map VNode.path).Nodup) (vn : VNode) (hvn : vn ∈ l) (hq : vn.path = q) :
    (l.map fun x => if x.path = q then g x else 0).sum = g vn := by
  induction l with
  | nil => cases hvn
  | cons a l ih =>
    simp only [List.map_cons, List.nodup_cons] at hnd
    rcases List.mem_cons.mp hvn with h0 | h1
    · subst h0
      have hz : ∀ x ∈ l, x.path ≠ q := by
        intro x hx hxq
        exact hnd.1 (hq ▸ hxq ▸ List.mem_map_of_mem VNode.path hx)
      simp [hq, sum_ite_path_zero l q g hz]
    · have ha : a.path ≠ q := by
        intro haq
        exact hnd.1 (haq ▸ hq ▸ List.mem_map_of_mem VNode.path h1)
      simp only [List.map_cons, List.sum_cons, if_neg ha,
        ih hnd.2 h1, Nat.zero_add]

theorem count_entry_block_dir (q : String) (vn : VNode) :
    List.count ((q, none) : String × Option String)
      ((vn.path, none) :: vn.files.map fun f => (vn.path, some f))
      = if vn.path = q then 1 else 0 := by
  have h0 : List.count ((q, none) : String × Option String)
      (vn.files.map fun f => (vn.path, some f)) = 0 := by
    refine List.count_eq_zero.mpr ?_
    intro hm
    rcases List.mem_map.mp hm with ⟨f, _, hf⟩
    simp at hf
  by_cases hp : vn.path = q
  · subst hp
    simp [List.count_cons, h0]
  · simp [List.count_cons, h0, hp]

theorem count_some_map (p f : String) (l : List String) :
    List.count ((p, some f) : String × Option String)
      (l.map fun x => (p, some x)) = l.count f := by
  induction l with
  | nil => simp
  | cons a l ih => simp [List.count_cons, ih]

theorem count_entry_block_file (q f : String) (vn : VNode) :
    List.count ((q, some f) : String × Option String)
      ((vn.path, none) :: vn.files.map fun x => (vn.path, some x))
      = if vn.path = q then vn.files.count f else 0 := by
  by_cases hp : vn.path = q
  · subst hp
    simp [List.count_cons, count_some_map]
  · have h0 : List.count ((q, some f) : String × Option String)
        (vn.files.map fun x => (vn.path, some x)) = 0 := by
      refine List.count_eq_zero.mpr ?_
      intro hm
      rcases List.mem_map.mp hm with ⟨x, _, hx⟩
      simp at hx
      exact hp hx.1
    simp [List.count_cons, h0, hp]

/-- Among all attributed output entries, the directory whose visit is `vn`
owns exactly one directory entry, provided no two visits share a path. -/
theorem entriesOf_count_dir (root : String) (d : Nat) (t : FsTree) (vn : VNode)
    (hnd : ((visit root d t).map VNode.path).Nodup) (hvn : vn ∈ visit root d t) :
    (entriesOf root d t).count (vn.path, none) = 1 := by
  rw [entriesOf, List.count_flatMap]
  have he : (List.count ((vn.path, none) : String × Option String) ∘
      fun x : VNode => (x.path, none) :: x.files.map fun f => (x.path, some f))
      = fun x : VNode => if x.path = vn.path then 1 else 0 :=
    funext fun x => count_entry_block_dir vn.path x
  rw [he]
  exact sum_ite_path (visit root d t) vn.path (fun _ => 1) hnd vn hvn rfl

/-- Among all attributed output entries, the file entries owned by the
visit `vn` for the file name `f` are as many as the occurrences of `f`
in `vn`'s file list, provided no two visits share a path. -/
theorem entriesOf_count_file (root : String) (d : Nat) (t : FsTree) (vn : VNode)
    (f : String)
    (hnd : ((visit root d t).map VNode.path).Nodup) (hvn : vn ∈ visit root d t) :
    (entriesOf root d t).count (vn.path, some f) = vn.files.count f := by
  rw [entriesOf, List.count_flatMap]
  have he : (List.count ((vn.path, some f) : String × Option String) ∘
      fun x : VNode => (x.path, none) :: x.files.map fun g => (x.path, some g))
      = fun x : VNode => if x.path = vn.path then x.files.count f else 0 :=
    funext fun x => count_entry_block_file vn.path f x
  rw [he]
  exact sum_ite_path (visit root d t) vn.path (fun x => x.files.count f) hnd vn hvn rfl

/-- The output is the rendering of the attributed entries, in order. -/
theorem walkOutput_eq_entries (t : FsTree) (root : String) (d : Nat) :
    walkOutput root t = (entriesOf root d t).map renderEntry := by
  rw [walkOutput_eq_visit_flatMap t root d, entriesOf, List.map_flatMap]
  refine List.flatMap_congr ?_  -- might not exist; adjust
  intro x _
  simp [block, renderEntry, List.map_map, Function.comp]

/-! ## Claims -/

/-- C1: if a subdirectory's name is in the exclusion set, the output contains
no line for that subdirectory and no line for anything beneath it — removing
its whole subtree from the input changes neither the output nor the list of
visits, and, in general, the output only depends on the tree with every
excluded subtree removed (the excluded subtree is never visited). -/
theorem excluded_subtree_never_listed (root n : String) (pre post : List FsTree)
    (c : FsTree) (files : List String) (hc : c.name ∈ excludedNames) :
    walkOutput root (.node n (pre ++ c :: post) files)
      = walkOutput root (.node n (pre ++ post) files) ∧
    (∀ d : Nat, visit root d (.node n (pre ++ c :: post) files)
      = visit root d (.node n (pre ++ post) files)) ∧
    (∀ (p : String) (t : FsTree), walkOutput p t = walkOutput p (pruneExcluded t)) := by
  refine ⟨?_, fun d => ?_, fun p t => (walkOutput_prune t p).symm⟩
  · simp only [walkOutput, walkChildren_append, walkChildren, if_pos hc,
      List.nil_append]
  · simp only [visit, visitChildren_append, visitChildren, if_pos hc,
      List.nil_append]

theorem excluded_subtree_never_listed_witness :
    walkOutput "."
        (FsTree.node "p"
          [FsTree.node "venv" [FsTree.node "lib" [] ["x.py"]] ["pyvenv.cfg"]]
          ["a.txt"])
      = walkOutput "." (FsTree.node "p" [] ["a.txt"]) :=
  (excluded_subtree_never_listed "." "p" [] []
    (FsTree.node "venv" [FsTree.node "lib" [] ["x.py"]] ["pyvenv.cfg"])
    ["a.txt"] (by decide)).1

/-- C2: every directory reachable without passing through an excluded name
owns exactly one directory line in the output; that line is the indent
followed by the path's base name and a trailing slash, and the indent is
exactly `2 * depth` space characters, where `depth` is the directory's depth
below the traversal root. -/
theorem dir_line_unique_per_directory (t : FsTree) (vn : VNode)
    (hg : t.goodNames = true)
    (hnd : ((visit "." 0 t).map VNode.path).Nodup)
    (hvn : vn ∈ visit "." 0 t) :
    (entriesOf "." 0 t).count (vn.path, none) = 1 ∧
    renderEntry (vn.path, none) =
      repeatStr vn.depth "  " ++ basename vn.path ++ "/" ++ "\n" ∧
    repeatStr vn.depth "  " = String.mk (List.replicate (2 * vn.depth) ' ') ∧
    (repeatStr vn.depth "  ").length = 2 * vn.depth ∧
    walkOutput "." t = (entriesOf "." 0 t).map renderEntry := by
  have hd : countSep vn.path = vn.depth :=
    visit_countSep_eq_depth t "." 0 hg countSep_dot vn hvn
  refine ⟨entriesOf_count_dir "." 0 t vn hnd hvn, ?_,
    repeatStr_two_space vn.depth, repeatStr_two_space_length vn.depth,
    walkOutput_eq_entries t "." 0⟩
  simp [renderEntry, dirWrite, hd]

theorem dir_line_unique_per_directory_witness :
    (entriesOf "." 0 sampleTree).count ("./src", none) = 1 :=
  (dir_line_unique_per_directory sampleTree ⟨"./src", 1, ["main.py"]⟩
    (by decide) (by decide) (by decide)).1

/-- C3: every file directly inside a visited directory at depth `d` owns
exactly one file line in the output, indented by exactly `2 * (d + 1)`
spaces, and that line appears in its parent directory's block, right after
the parent's own line and before any other directory's line. -/
theorem file_line_per_file (t : FsTree) (vn : VNode) (f : String)
    (hg : t.goodNames = true)
    (hnd : ((visit "." 0 t).map VNode.path).Nodup)
    (hvn : vn ∈ visit "." 0 t)
    (hfnd : vn.files.Nodup) (hf : f ∈ vn.files) :
    (entriesOf "." 0 t).count (vn.path, some f) = 1 ∧
    renderEntry (vn.path, some f) = repeatStr (vn.depth + 1) "  " ++ f ++ "\n" ∧
    (repeatStr (vn.depth + 1) "  ").length = 2 * (vn.depth + 1) ∧
    fileWrite vn.path f ∈ vn.files.map (fileWrite vn.path) ∧
    ∃ pre post, walkOutput "." t =
      pre ++ (dirWrite vn.path :: vn.files.map (fileWrite vn.path)) ++ post := by
  have hd : countSep vn.path = vn.depth :=
    visit_countSep_eq_depth t "." 0 hg countSep_dot vn hvn
  refine ⟨?_, ?_, repeatStr_two_space_length (vn.depth + 1),
    List.mem_map_of_mem _ hf, ?_⟩
  · rw [entriesOf_count_file "." 0 t vn f hnd hvn]
    exact List.count_eq_one_of_mem hfnd hf
  · simp [renderEntry, fileWrite, hd]
  · rcases List.append_of_mem hvn with ⟨s, u, hsu⟩
    refine ⟨s.flatMap block, u.flatMap block, ?_⟩
    rw [walkOutput_eq_visit_flatMap t "." 0, hsu, List.flatMap_append,
      List.flatMap_cons]
    simp [block]

theorem file_line_per_file_witness :
    (entriesOf "." 0 sampleTree).count ("./src", some "main.py") = 1 :=
  (file_line_per_file sampleTree ⟨"./src", 1, ["main.py"]⟩ "main.py"
    (by decide) (by decide) (by decide) (by decide) (by decide)).1

/-- C4: the level the script computes for a visited directory — the count of
path-separator characters in the walked path string — equals the directory's
depth below the traversal root, and the root path `"."` itself has level 0
(its subdirectory names being separator-free, as on a real filesystem). -/
theorem level_equals_depth (t : FsTree) (vn : VNode)
    (hg : t.goodNames = true) (hvn : vn ∈ visit "." 0 t) :
    countSep vn.path = vn.depth ∧ countSep "." = 0 :=
  ⟨visit_countSep_eq_depth t "." 0 hg countSep_dot vn hvn, countSep_dot⟩

theorem level_equals_depth_witness : countSep "./src" = 1 :=
  (level_equals_depth sampleTree ⟨"./src", 1, ["main.py"]⟩
    (by decide) (by decide)).1

/-- C5: over an unchanged tree the run is deterministic and overwrites the
previous file content: the result does not depend on what the file held
before, and running a second time over the first run's output reproduces it
exactly. -/
theorem rerun_overwrites_deterministically (t : FsTree) (s₁ s₂ : String) :
    runProgram t s₁ = runProgram t s₂ ∧
    runProgram t (runProgram t s₁) = runProgram t s₁ :=
  ⟨rfl, rfl⟩

/-- C6: when the output file cannot be opened for writing, the run stops at
the opening event — which the trace places before every traversal write —
with a filesystem error, and not a single output line is written. -/
theorem open_failure_stops_run (t : FsTree) :
    execEvents false (programTrace t) = ([], some openErr) := by
  simp [programTrace, execEvents]

/-- C7: on an empty directory tree (no subdirectories, no files) the output
is exactly the single line `./`, whatever the output file held before. -/
theorem empty_tree_output (n : String) (prev : String) :
    walkOutput "." (FsTree.node n [] []) = ["./\n"] ∧
    runProgram (FsTree.node n [] []) prev = "./\n" := by
  have h : walkOutput "." (FsTree.node n [] []) = [dirWrite "."] := by
    simp [walkOutput, walkChildren]
  constructor
  · rw [h]; decide
  · rw [runProgram, h]
    have hop : openTruncate prev = "" := rfl
    rw [hop]
    decide

/-- C8: the exclusion set is matched against directory names only, never
file names: a file whose name is in the exclusion set, directly inside a
visited directory, still gets its line in the output. -/
theorem file_named_like_excluded_still_listed (t : FsTree) (vn : VNode)
    (f : String) (hvn : vn ∈ visit "." 0 t) (hf : f ∈ vn.files)
    (hex : f ∈ excludedNames) :
    fileWrite vn.path f ∈ walkOutput "." t := by
  rw [walkOutput_eq_visit_flatMap t "." 0]
  refine List.mem_flatMap.mpr ⟨vn, hvn, ?_⟩
  exact List.mem_cons_of_mem _ (List.mem_map_of_mem _ hf)

theorem file_named_like_excluded_still_listed_witness :
    fileWrite "." "venv" ∈ walkOutput "." sampleTree :=
  file_named_like_excluded_still_listed sampleTree
    ⟨".", 0, ["README.md", "venv"]⟩ "venv" (by decide) (by decide) (by decide)

/-- C9: the traversal root is always the first line of the output, written
as `./` at indent 0 for every input tree — in particular even when the
working directory's own name is in the exclusion set — because the walked
root path is the literal `"."`, whose base name is `"."` and whose level
is 0, and the exclusion filter only ever applies to subdirectories. -/
theorem root_always_written_first (t : FsTree) :
    (walkOutput "." t).head? = some "./\n" ∧
    basename "." = "." ∧ countSep "." = 0 := by
  cases t with
  | node n subdirs files =>
    refine ⟨?_, by decide, countSep_dot⟩
    have h : dirWrite "." = "./\n" := by decide
    simp [walkOutput, h]

/-- C10: the output is, visit block after visit block, the visited
directory's own line immediately followed by the lines of the files directly
inside it — so a directory's file lines are contiguous, sit right under
their parent's line, and no other directory's line is interleaved among
them. -/
theorem files_listed_contiguously (t : FsTree) :
    walkOutput "." t = (visit "." 0 t).flatMap block ∧
    ∀ vn : VNode, block vn = dirWrite vn.path :: vn.files.map (fileWrite vn.path) :=
  ⟨walkOutput_eq_visit_flatMap t "." 0, fun _ => rfl⟩
